import Mathlib

/-!
# Verification of the splintr BPE tokenizer core

The repository ships a Python package whose implementation lives in a
compiled extension module (`splintr._core`); only the Python re-export
shim is present as source.  The definitions below are therefore modelled
from the specification (`spec.md`), which describes the core components:
vocabulary store, BPE merge engine, special-token matcher, encoding
cache, batch encoder, decoder and streaming decoder.  Texts and byte
strings are modelled as `List Nat` of byte values (< 256), token ids as
`Nat`.
-/

namespace Splintr

/-- Modelled from the spec: error kinds of the tokenizer core (§7).
`UnencodableByte` is the encode-time internal-invariant violation, and
`UnknownTokenId` the decode-time out-of-range-id error. -/
inductive SplintrError where
  | UnencodableByte (b : Nat)
  | UnknownTokenId (id : Nat)
  deriving DecidableEq, Repr

/-- Modelled from the spec: the Vocabulary Store (§3, §4.1), an immutable
mapping from dense token ids to byte strings; the id of an entry is its
index in the list. -/
structure Vocab where
  entries : List (List Nat)
  deriving DecidableEq

/-- The number of base-vocabulary entries; valid base ids are `< size`. -/
def Vocab.size (v : Vocab) : Nat := v.entries.length

/-- Byte string of a base token id, `none` when the id is out of range. -/
def tokenBytes (v : Vocab) (id : Nat) : Option (List Nat) := v.entries.get? id

/-- Modelled from the spec: the Merge Table (§3), an ordered list of rules
`(left id, right id) ↦ merged id`; the rank of a rule is its position in
the list (lower rank = higher priority). -/
abbrev MergeTable : Type := List ((Nat × Nat) × Nat)

/-- Modelled from the spec: the Special Token Table (§3), a mapping from
literal marker byte strings to reserved token ids. -/
abbrev SpecialTable : Type := List (List Nat × Nat)

/-- Id of the base-vocabulary entry for the single byte `b` (the first
entry whose byte string is exactly `[b]`), `none` if the vocabulary has
no single-byte entry for `b`. -/
def byteId (entries : List (List Nat)) (b : Nat) : Option Nat :=
  match entries with
  | [] => none
  | e :: rest => if e = [b] then some 0 else (byteId rest b).map (· + 1)

/-- Rank (position) and merged id of the first merge rule for the pair
`p`, `none` if no rule applies to `p`. -/
def mergeRank (mt : MergeTable) (p : Nat × Nat) : Option (Nat × Nat) :=
  match mt with
  | [] => none
  | (q, m) :: rest =>
    if q = p then some (0, m) else (mergeRank rest p).map (fun rm => (rm.1 + 1, rm.2))

/-- Modelled from the spec: locate the adjacent pair with the lowest rank
(§4.4), returning `(position, rank, merged id)`.  Ties among equal-rank
pairs are broken leftmost-first (`≤` keeps the left candidate). -/
def bestPair (mt : MergeTable) : List Nat → Option (Nat × Nat × Nat)
  | a :: b :: rest =>
    match mergeRank mt (a, b), (bestPair mt (b :: rest)).map (fun irm => (irm.1 + 1, irm.2)) with
    | none, tb => tb
    | some (r, m), none => some (0, r, m)
    | some (r, m), some (i2, r2, m2) => if r ≤ r2 then some (0, r, m) else some (i2, r2, m2)
  | _ => none

/-- Replace the adjacent pair at position `i` by the merged id `m`. -/
def mergeAt (toks : List Nat) (i : Nat) (m : Nat) : List Nat :=
  toks.take i ++ m :: toks.drop (i + 2)

/-- Modelled from the spec: the BPE merge loop (§4.4): repeatedly merge
the lowest-rank adjacent pair until no rule applies.  `fuel` bounds the
iteration count; each merge shortens the sequence by one, so fuel equal
to the initial length always suffices. -/
def bpeRun (mt : MergeTable) : Nat → List Nat → List Nat
  | 0, toks => toks
  | fuel + 1, toks =>
    match bestPair mt toks with
    | none => toks
    | some (i, _, m) => bpeRun mt fuel (mergeAt toks i m)

/-- Run the merge loop to completion on an initial token sequence. -/
def bpeMerge (mt : MergeTable) (toks : List Nat) : List Nat :=
  bpeRun mt toks.length toks

/-- Map each byte of a piece to its single-byte base token id; fails with
`UnencodableByte` on a byte with no entry. -/
def baseToks (v : Vocab) : List Nat → Except SplintrError (List Nat)
  | [] => .ok []
  | b :: bs =>
    match byteId v.entries b with
    | none => .error (.UnencodableByte b)
    | some i =>
      match baseToks v bs with
      | .error e => .error e
      | .ok rest => .ok (i :: rest)

/-- Modelled from the spec: the BPE Merge Engine (§4.4) on one piece:
initialize base tokens from the piece's bytes, then run the merge loop. -/
def encodePiece (v : Vocab) (mt : MergeTable) (piece : List Nat) :
    Except SplintrError (List Nat) :=
  match baseToks v piece with
  | .error e => .error e
  | .ok toks => .ok (bpeMerge mt toks)

/-- Encode a list of pre-tokenized pieces and concatenate the results. -/
def encodePieces (v : Vocab) (mt : MergeTable) : List (List Nat) → Except SplintrError (List Nat)
  | [] => .ok []
  | p :: ps =>
    match encodePiece v mt p with
    | .error e => .error e
    | .ok ts =>
      match encodePieces v mt ps with
      | .error e => .error e
      | .ok rest => .ok (ts ++ rest)

/-- Modelled from the spec: strict-mode encode (§4.3, §6): the text is
split into pieces by the pre-tokenizer `pt` and each piece is merged
independently; special markers are never recognized. -/
def encode (v : Vocab) (mt : MergeTable) (pt : List Nat → List (List Nat))
    (text : List Nat) : Except SplintrError (List Nat) :=
  encodePieces v mt (pt text)

/-- Byte string of a special-token id in the special table. -/
def specialBytes (st : SpecialTable) (id : Nat) : Option (List Nat) :=
  match st with
  | [] => none
  | (m, i) :: rest => if i = id then some m else specialBytes rest id

/-- Decode one token id: base-vocabulary lookup, then (if a special table
was supplied) special-table lookup, else `UnknownTokenId`. -/
def decodeOne (v : Vocab) (st : Option SpecialTable) (id : Nat) :
    Except SplintrError (List Nat) :=
  match tokenBytes v id with
  | some bs => .ok bs
  | none =>
    match st with
    | none => .error (.UnknownTokenId id)
    | some tbl =>
      match specialBytes tbl id with
      | some bs => .ok bs
      | none => .error (.UnknownTokenId id)

/-- Modelled from the spec: the Decoder (§4.7): concatenate the byte
strings of all ids, failing with `UnknownTokenId` when any id is out of
the valid range. -/
def decode (v : Vocab) (st : Option SpecialTable) : List Nat → Except SplintrError (List Nat)
  | [] => .ok []
  | id :: ids =>
    match decodeOne v st id with
    | .error e => .error e
    | .ok bs =>
      match decode v st ids with
      | .error e => .error e
      | .ok rest => .ok (bs ++ rest)

/-- The vocabulary is byte-complete: every byte value has a single-byte
entry (§4.4: all 256 byte values present). -/
def ByteComplete (v : Vocab) : Prop :=
  ∀ b, b < 256 → (byteId v.entries b).isSome = true

/-- The merge table is consistent with the vocabulary (§3 invariant):
the merged id's byte string is the concatenation of the byte strings of
the left and right ids. -/
def MTConsistent (v : Vocab) (mt : MergeTable) : Prop :=
  ∀ r ∈ mt, tokenBytes v r.2 =
    (tokenBytes v r.1.1).bind (fun ba => (tokenBytes v r.1.2).map (fun bb => ba ++ bb))

instance : DecidablePred (ByteComplete) := fun v => by
  unfold ByteComplete; infer_instance

instance (v : Vocab) (mt : MergeTable) : Decidable (MTConsistent v mt) := by
  unfold MTConsistent
  exact List.decidableBAll _ mt

/-! ## Streaming decoder (§4.8) -/

/-- Whether a byte is a UTF-8 continuation byte (`10xxxxxx`). -/
def isCont (b : Nat) : Bool := 128 ≤ b && b < 192

/-- Expected total length of the UTF-8 sequence started by a lead byte
`b`, or `0` if `b` cannot start a sequence. -/
def leadLen (b : Nat) : Nat :=
  if b < 128 then 1
  else if b < 192 then 0
  else if b < 224 then 2
  else if b < 240 then 3
  else if b < 248 then 4
  else 0

/-- Modelled from the spec: scan the buffer from the end (§4.8) for the
longest suffix that is a still-incomplete UTF-8 sequence.  The argument
is the buffer reversed; the result is the retained tail, reversed (a
prefix of the argument). -/
def pendingRev (r : List Nat) : List Nat :=
  match r with
  | [] => []
  | b0 :: rest =>
    if leadLen b0 > 1 then [b0]
    else if isCont b0 then
      match rest with
      | [] => []
      | b1 :: rest2 =>
        if leadLen b1 > 2 then [b0, b1]
        else if isCont b1 then
          match rest2 with
          | [] => []
          | b2 :: _ => if leadLen b2 > 3 then [b0, b1, b2] else []
        else []
    else []

/-- Split a buffer into the bytes that may be emitted and the retained
incomplete UTF-8 tail. -/
def splitBuf (l : List Nat) : List Nat × List Nat :=
  let p := pendingRev l.reverse
  ((l.reverse.drop p.length).reverse, p.reverse)

/-- A byte string that is a proper prefix of a single multi-byte UTF-8
sequence (a genuinely incomplete tail). -/
def isIncompleteUtf8 (l : List Nat) : Bool :=
  match l with
  | [b] => leadLen b > 1
  | [b, c] => decide (leadLen b > 2) && isCont c
  | [b, c, d] => decide (leadLen b > 3) && isCont c && isCont d
  | _ => false

/-- UTF-8 encoding of the standard replacement character U+FFFD. -/
def replacementChar : List Nat := [239, 191, 189]

/-- Modelled from the spec: `add_token` (§4.8): decode the id, append its
bytes to the buffer, emit the complete leading run and retain the
incomplete tail.  Returns `(emitted fragment, new buffer)`. -/
def sdAdd (v : Vocab) (st : Option SpecialTable) (buf : List Nat) (id : Nat) :
    Except SplintrError (List Nat × List Nat) :=
  match decodeOne v st id with
  | .error e => .error e
  | .ok bs => .ok (splitBuf (buf ++ bs))

/-- Run `add_token` sequentially over a token list, concatenating the
emitted fragments; returns the concatenation and the final buffer. -/
def sdRun (v : Vocab) (st : Option SpecialTable) (buf : List Nat) :
    List Nat → Except SplintrError (List Nat × List Nat)
  | [] => .ok ([], buf)
  | id :: ids =>
    match sdAdd v st buf id with
    | .error e => .error e
    | .ok (em, buf') =>
      match sdRun v st buf' ids with
      | .error e => .error e
      | .ok (ems, bufF) => .ok (em ++ ems, bufF)

/-- Modelled from the spec: `flush` (§4.8): when the retained buffer is
non-empty it is an incomplete sequence — emit the replacement marker in
its place and clear the state.  Returns `(emitted fragment, new buffer)`. -/
def sdFlush (buf : List Nat) : List Nat × List Nat :=
  if buf = [] then ([], []) else (replacementChar, [])

/-! ## Special-token matcher and permissive encode (§4.3) -/

/-- Longest registered marker that is a prefix of `text` (with its id);
ties between equal-length markers go to the earlier table entry.  Empty
markers never match. -/
def matchAt (tbl : SpecialTable) (text : List Nat) : Option (List Nat × Nat) :=
  match tbl with
  | [] => none
  | (m, i) :: rest =>
    if m ≠ [] && m.isPrefixOf text then
      match matchAt rest text with
      | none => some (m, i)
      | some (m2, i2) => if m.length < m2.length then some (m2, i2) else some (m, i)
    else matchAt rest text

/-- A segment of text as classified by the special-token matcher: either
a literal special-token marker (with its matched bytes and reserved id)
or a maximal run of ordinary text. -/
inductive Seg where
  | special (m : List Nat) (i : Nat)
  | gap (s : List Nat)
  deriving DecidableEq, Repr

/-- Modelled from the spec: single left-to-right scan of the Special-
Token Matcher (§4.3): at each position, match the longest registered
marker (leftmost match wins) or accumulate the byte into the pending
ordinary-text run.  `pend` holds the pending run reversed; `fuel` bounds
the scan and is initialized to the text length. -/
def splitSpecialF (tbl : SpecialTable) : Nat → List Nat → List Nat → List Seg
  | _, pend, [] => if pend = [] then [] else [.gap pend.reverse]
  | 0, pend, text => if pend = [] then [.gap text] else [.gap (pend.reverse ++ text)]
  | fuel + 1, pend, c :: rest =>
    match matchAt tbl (c :: rest) with
    | some (m, i) =>
      (if pend = [] then [] else [.gap pend.reverse]) ++
        .special m i :: splitSpecialF tbl fuel [] ((c :: rest).drop m.length)
    | none => splitSpecialF tbl fuel (c :: pend) rest

/-- Split a text into special-token and ordinary-text segments. -/
def splitSpecial (tbl : SpecialTable) (text : List Nat) : List Seg :=
  splitSpecialF tbl text.length [] text

/-- Byte content of a segment (the marker for a special, the run for a
gap), used to state that the segmentation reconstructs the text. -/
def segBytes : Seg → List Nat
  | .special m _ => m
  | .gap s => s

/-- Token output of one segment: a special marker maps to its reserved
id; an ordinary-text gap goes through the strict pipeline. -/
def segTokens (v : Vocab) (mt : MergeTable) (pt : List Nat → List (List Nat)) :
    Seg → Except SplintrError (List Nat)
  | .special _ i => .ok [i]
  | .gap s => encode v mt pt s

/-- Concatenate the per-segment token outputs. -/
def segsTokens (v : Vocab) (mt : MergeTable) (pt : List Nat → List (List Nat)) :
    List Seg → Except SplintrError (List Nat)
  | [] => .ok []
  | s :: ss =>
    match segTokens v mt pt s with
    | .error e => .error e
    | .ok ts =>
      match segsTokens v mt pt ss with
      | .error e => .error e
      | .ok rest => .ok (ts ++ rest)

/-- Modelled from the spec: permissive-mode encode (`encode_with_special`,
§4.3, §6): markers are recognized anywhere and converted to their
reserved ids; the ordinary text between them is pre-tokenized and merged
independently. -/
def encodeWithSpecial (v : Vocab) (mt : MergeTable) (pt : List Nat → List (List Nat))
    (tbl : SpecialTable) (text : List Nat) : Except SplintrError (List Nat) :=
  segsTokens v mt pt (splitSpecial tbl text)

/-! ## Encoding cache (§4.5) and batch encoder (§4.6) -/

/-- Modelled from the spec: the Encoding Cache (§3, §4.5): entries keyed
by exact piece bytes with token-sequence values, most-recently-used
first. -/
abbrev Cache : Type := List (List Nat × List Nat)

/-- Look up a piece in the cache. -/
def cacheLookup (c : Cache) (k : List Nat) : Option (List Nat) :=
  match c with
  | [] => none
  | (k', ts) :: rest => if k' = k then some ts else cacheLookup rest k

/-- Modelled from the spec: LRU insertion (§4.5): place the entry at the
most-recently-used position, dropping any previous entry for the same
key and evicting past the capacity bound. -/
def lruInsert (cap : Nat) (c : Cache) (k : List Nat) (ts : List Nat) : Cache :=
  ((k, ts) :: c.filter (fun p => p.1 ≠ k)).take cap

/-- Modelled from the spec: `lookup_or_compute` (§4.5): on hit return the
cached sequence and mark it most-recently-used; on miss run the merge
engine and insert the result. -/
def lookupOrCompute (cap : Nat) (v : Vocab) (mt : MergeTable) (c : Cache)
    (k : List Nat) : Except SplintrError (List Nat × Cache) :=
  match cacheLookup c k with
  | some ts => .ok (ts, lruInsert cap c k ts)
  | none =>
    match encodePiece v mt k with
    | .error e => .error e
    | .ok ts => .ok (ts, lruInsert cap c k ts)

instance {ε α : Type} [DecidableEq ε] [DecidableEq α] : DecidableEq (Except ε α)
  | .ok x, .ok y => decidable_of_iff (x = y) ⟨fun h => h ▸ rfl, fun h => by cases h; rfl⟩
  | .ok _, .error _ => isFalse (fun h => Except.noConfusion h)
  | .error _, .ok _ => isFalse (fun h => Except.noConfusion h)
  | .error e, .error f => decidable_of_iff (e = f) ⟨fun h => h ▸ rfl, fun h => by cases h; rfl⟩

/-- Every cache entry holds exactly the merge engine's result for its
key (the invariant maintained by `lookupOrCompute`). -/
def CacheGood (v : Vocab) (mt : MergeTable) (c : Cache) : Prop :=
  ∀ p ∈ c, encodePiece v mt p.1 = .ok p.2

instance (v : Vocab) (mt : MergeTable) (c : Cache) : Decidable (CacheGood v mt c) := by
  unfold CacheGood
  exact List.decidableBAll _ c

/-- Modelled from the spec: the Batch Encoder (§4.6) with an explicit
worker completion order: each completed item writes its result into its
pre-allocated output slot; `order` lists the input indices in completion
order. -/
def encodeBatchOrdered (v : Vocab) (mt : MergeTable) (pt : List Nat → List (List Nat))
    (inputs : List (List Nat)) (order : List Nat) :
    List (Option (Except SplintrError (List Nat))) :=
  order.foldl (fun acc i => acc.set i (some (encode v mt pt (inputs.getD i []))))
    (List.replicate inputs.length none)

/-- Batch encode with the canonical in-order completion. -/
def encodeBatch (v : Vocab) (mt : MergeTable) (pt : List Nat → List (List Nat))
    (inputs : List (List Nat)) : List (Option (Except SplintrError (List Nat))) :=
  encodeBatchOrdered v mt pt inputs (List.range inputs.length)

/-! ## Agent token constants and tokenizer instances (§6) -/

/-- Modelled from the spec and the package docstring: the category-
qualified agent-token constant table for the cl100k configuration; only
the ids documented in the source are included. -/
structure AgentTokens where
  THINK : Nat
  FUNCTION : Nat
  deriving DecidableEq, Repr

/-- The cl100k agent-token constants (`CL100K_AGENT_TOKENS.THINK` is
documented as 100282 and `CL100K_AGENT_TOKENS.FUNCTION` as 100292). -/
def CL100K_AGENT_TOKENS : AgentTokens := { THINK := 100282, FUNCTION := 100292 }

/-- Modelled from the spec: a tokenizer instance (§6): vocabulary, merge
table, pre-tokenization pattern, optional special table and the agent-
token constant table of its named configuration. -/
structure Tokenizer where
  vocab : Vocab
  merges : MergeTable
  pretok : List Nat → List (List Nat)
  specials : Option SpecialTable
  agent : AgentTokens

/-- Modelled from the spec: building a tokenizer from the cl100k named
configuration always installs the cl100k agent-token constant table,
whatever vocabulary/merge/pattern data the loader supplies. -/
def fromPretrainedCl100k (v : Vocab) (mt : MergeTable)
    (pt : List Nat → List (List Nat)) (st : Option SpecialTable) : Tokenizer :=
  { vocab := v, merges := mt, pretok := pt, specials := st,
    agent := CL100K_AGENT_TOKENS }

/-! ## Concrete instances used to instantiate the theorems -/

/-- The toy vocabulary of the spec's merge-correctness example (§8):
id 0 = byte `a`, id 1 = `X` = `aa`, id 2 = `Y` = `aaaa`. -/
def toyVocab : Vocab := ⟨[[97], [97, 97], [97, 97, 97, 97]]⟩

/-- The toy merge table of the spec's example: `a+a→X` at rank 0 and
`X+X→Y` at rank 1. -/
def toyMerges : MergeTable := [((0, 0), 1), ((1, 1), 2)]

/-- `[[a], [a+1], …, [a+n-1]]`: consecutive single-byte entries. -/
def byteEntriesFrom (a : Nat) : Nat → List (List Nat)
  | 0 => []
  | n + 1 => [a] :: byteEntriesFrom (a + 1) n

/-- A byte-complete vocabulary: entry `b` is the single byte `b`, for all
256 byte values. -/
def byteVocab : Vocab := ⟨byteEntriesFrom 0 256⟩

/-- The trivial pre-tokenizer that keeps the whole text as one piece. -/
def wholeTextPT : List Nat → List (List Nat) := fun s => [s]

/-- A small special-token table: markers `<t>` ↦ 100 and `<tt>` ↦ 101. -/
def toySpecials : SpecialTable := [([60, 116, 62], 100), ([60, 116, 116, 62], 101)]

/-! ## Basic lemmas about vocabulary lookups -/

lemma byteId_get {b i : Nat} : ∀ {entries : List (List Nat)},
    byteId entries b = some i → entries.get? i = some [b] := by
  intro entries
  induction entries generalizing i with
  | nil => intro h; simp [byteId] at h
  | cons e rest ih =>
    intro h
    rw [byteId] at h
    by_cases he : e = [b]
    · rw [if_pos he] at h
      cases h
      simp [he]
    · rw [if_neg he] at h
      rcases Option.map_eq_some'.mp h with ⟨j, hj, hji⟩
      cases hji
      simpa using ih hj

lemma byteId_lt {entries : List (List Nat)} {b i : Nat}
    (h : byteId entries b = some i) : i < entries.length := by
  by_contra hge
  have : entries.get? i = none := List.get?_eq_none.mpr (Nat.le_of_not_lt hge)
  rw [byteId_get h] at this
  cases this

lemma tokenBytes_lt {v : Vocab} {t : Nat} {bs : List Nat}
    (h : tokenBytes v t = some bs) : t < v.size := by
  by_contra hge
  have : v.entries.get? t = none := List.get?_eq_none.mpr (Nat.le_of_not_lt hge)
  rw [tokenBytes] at h
  rw [this] at h
  cases h

lemma tokenBytes_of_lt {v : Vocab} {t : Nat} (h : t < v.size) :
    ∃ bs, tokenBytes v t = some bs := by
  cases hb : tokenBytes v t with
  | some bs => exact ⟨bs, rfl⟩
  | none =>
    rw [tokenBytes] at hb
    have := List.get?_eq_none.mp hb
    exact absurd h (Nat.not_lt.mpr this)

lemma byteEntriesFrom_byteId {b : Nat} : ∀ (n a : Nat), a ≤ b → b < a + n →
    byteId (byteEntriesFrom a n) b = some (b - a) := by
  intro n
  induction n with
  | zero => intro a h1 h2; omega
  | succ n ih =>
    intro a h1 h2
    rw [byteEntriesFrom, byteId]
    by_cases hab : a = b
    · subst hab
      simp
    · have hlt : a < b := Nat.lt_of_le_of_ne h1 hab
      rw [if_neg (by simpa using hab)]
      rw [ih (a + 1) hlt (by omega)]
      simp
      omega

lemma byteVocab_complete : ByteComplete byteVocab := by
  intro b hb
  rw [byteVocab]
  rw [byteEntriesFrom_byteId 256 0 (Nat.zero_le b) (by omega)]
  rfl

/-! ## Lemmas about the merge table and pair selection -/

lemma mergeRank_mem {p : Nat × Nat} {rm : Nat × Nat} : ∀ {mt : MergeTable},
    mergeRank mt p = some rm → (p, rm.2) ∈ mt := by
  intro mt
  induction mt generalizing rm with
  | nil => intro h; simp [mergeRank] at h
  | cons qm rest ih =>
    obtain ⟨q, m0⟩ := qm
    intro h
    rw [mergeRank] at h
    by_cases hq : q = p
    · rw [if_pos hq] at h
      cases h
      subst hq
      exact List.mem_cons_self _ _
    · rw [if_neg hq] at h
      rcases Option.map_eq_some'.mp h with ⟨rm0, hrm0, hrm⟩
      cases hrm
      have hmem := ih hrm0
      exact List.mem_cons_of_mem _ hmem

lemma bestPair_get {mt : MergeTable} : ∀ {toks : List Nat} {i r m : Nat},
    bestPair mt toks = some (i, r, m) →
      ∃ a b, toks.get? i = some a ∧ toks.get? (i + 1) = some b ∧
        mergeRank mt (a, b) = some (r, m) := by
  intro toks
  induction toks with
  | nil => intro i r m h; simp [bestPair] at h
  | cons a tl ih =>
    intro i r m h
    cases tl with
    | nil => simp [bestPair] at h
    | cons b rest =>
      rw [bestPair] at h
      cases hmr : mergeRank mt (a, b) with
      | none =>
        rw [hmr] at h
        cases htb : bestPair mt (b :: rest) with
        | none => rw [htb] at h; simp at h
        | some irm =>
          obtain ⟨i1, r1, m1⟩ := irm
          rw [htb] at h
          simp only [Option.map_some'] at h
          cases h
          rcases ih htb with ⟨x, y, hx, hy, hxy⟩
          exact ⟨x, y, by simpa using hx, by simpa using hy, hxy⟩
      | some rm0 =>
        obtain ⟨r0, m0⟩ := rm0
        rw [hmr] at h
        cases htb : bestPair mt (b :: rest) with
        | none =>
          rw [htb] at h
          simp only [Option.map_none'] at h
          cases h
          exact ⟨a, b, rfl, rfl, hmr⟩
        | some irm =>
          obtain ⟨i1, r1, m1⟩ := irm
          rw [htb] at h
          simp only [Option.map_some'] at h
          by_cases hle : r0 ≤ r1
          · rw [if_pos hle] at h
            cases h
            exact ⟨a, b, rfl, rfl, hmr⟩
          · rw [if_neg hle] at h
            cases h
            rcases ih htb with ⟨x, y, hx, hy, hxy⟩
            exact ⟨x, y, by simpa using hx, by simpa using hy, hxy⟩

lemma bestPair_leftmost {mt : MergeTable} : ∀ {toks : List Nat} {i r m : Nat},
    bestPair mt toks = some (i, r, m) →
      ∀ j a b r2 m2, j < i → toks.get? j = some a → toks.get? (j + 1) = some b →
        mergeRank mt (a, b) = some (r2, m2) → r < r2 := by
  intro toks
  induction toks with
  | nil => intro i r m h; simp [bestPair] at h
  | cons a tl ih =>
    intro i r m h
    cases tl with
    | nil => simp [bestPair] at h
    | cons b rest =>
      rw [bestPair] at h
      cases hmr : mergeRank mt (a, b) with
      | none =>
        rw [hmr] at h
        cases htb : bestPair mt (b :: rest) with
        | none => rw [htb] at h; simp at h
        | some irm =>
          obtain ⟨i1, r1, m1⟩ := irm
          rw [htb] at h
          simp only [Option.map_some'] at h
          cases h
          intro j x y r2 m2 hj hx hy hxy
          cases j with
          | zero =>
            simp only [List.get?_cons_zero, List.get?_cons_succ] at hx hy
            cases hx; cases hy
            rw [hxy] at hmr
            cases hmr
          | succ jj =>
            simp only [List.get?_cons_succ] at hx hy
            exact ih htb jj x y r2 m2 (by omega) hx hy hxy
      | some rm0 =>
        obtain ⟨r0, m0⟩ := rm0
        rw [hmr] at h
        cases htb : bestPair mt (b :: rest) with
        | none =>
          rw [htb] at h
          simp only [Option.map_none'] at h
          cases h
          intro j x y r2 m2 hj hx hy hxy
          omega
        | some irm =>
          obtain ⟨i1, r1, m1⟩ := irm
          rw [htb] at h
          simp only [Option.map_some'] at h
          by_cases hle : r0 ≤ r1
          · rw [if_pos hle] at h
            cases h
            intro j x y r2 m2 hj hx hy hxy
            omega
          · rw [if_neg hle] at h
            cases h
            intro j x y r2 m2 hj hx hy hxy
            cases j with
            | zero =>
              simp only [List.get?_cons_zero, List.get?_cons_succ] at hx hy
              cases hx; cases hy
              rw [hxy] at hmr
              cases hmr
              omega
            | succ jj =>
              simp only [List.get?_cons_succ] at hx hy
              exact ih htb jj x y r2 m2 (by omega) hx hy hxy

lemma mergeAt_zero {a b m : Nat} {rest : List Nat} :
    mergeAt (a :: b :: rest) 0 m = m :: rest := rfl

lemma mergeAt_succ {a m i : Nat} {tl : List Nat} :
    mergeAt (a :: tl) (i + 1) m = a :: mergeAt tl i m := rfl

/-! ## Decoder lemmas -/

lemma decodeOne_base {v : Vocab} {st : Option SpecialTable} {t : Nat} {bs : List Nat}
    (h : tokenBytes v t = some bs) : decodeOne v st t = .ok bs := by
  simp only [decodeOne.eq_def, h]

lemma decodeOne_none_inv {v : Vocab} {t : Nat} {bs : List Nat}
    (h : decodeOne v none t = .ok bs) : tokenBytes v t = some bs := by
  rw [decodeOne.eq_def] at h
  cases hb : tokenBytes v t with
  | some bs2 => rw [hb] at h; cases h; rfl
  | none => rw [hb] at h; cases h

lemma decode_cons_ok {v : Vocab} {st : Option SpecialTable} {id : Nat} {ids : List Nat}
    {bs : List Nat} (h : decode v st (id :: ids) = .ok bs) :
    ∃ b1 rest, decodeOne v st id = .ok b1 ∧ decode v st ids = .ok rest ∧ bs = b1 ++ rest := by
  rw [decode] at h
  cases h1 : decodeOne v st id with
  | error e => rw [h1] at h; cases h
  | ok b1 =>
    rw [h1] at h
    cases h2 : decode v st ids with
    | error e => rw [h2] at h; cases h
    | ok rest =>
      rw [h2] at h
      cases h
      exact ⟨b1, rest, rfl, rfl, rfl⟩

lemma decode_cons_of {v : Vocab} {st : Option SpecialTable} {id : Nat} {ids : List Nat}
    {b1 rest : List Nat} (h1 : decodeOne v st id = .ok b1) (h2 : decode v st ids = .ok rest) :
    decode v st (id :: ids) = .ok (b1 ++ rest) := by
  rw [decode, h1, h2]

lemma decode_append_ok {v : Vocab} {st : Option SpecialTable} : ∀ {xs ys : List Nat}
    {bx by2 : List Nat}, decode v st xs = .ok bx → decode v st ys = .ok by2 →
    decode v st (xs ++ ys) = .ok (bx ++ by2) := by
  intro xs
  induction xs with
  | nil =>
    intro ys bx by2 hx hy
    rw [decode] at hx
    cases hx
    simpa using hy
  | cons id rest ih =>
    intro ys bx by2 hx hy
    rcases decode_cons_ok hx with ⟨b1, brest, h1, h2, hb⟩
    subst hb
    rw [List.cons_append]
    rw [decode_cons_of h1 (ih h2 hy)]
    rw [List.append_assoc]

/-! ## The merge loop preserves the decoded byte string -/

lemma decode_mergeAt {v : Vocab} {mt : MergeTable} (hmt : MTConsistent v mt) :
    ∀ {toks : List Nat} {i r m : Nat} {bs : List Nat},
      bestPair mt toks = some (i, r, m) → decode v none toks = .ok bs →
      decode v none (mergeAt toks i m) = .ok bs := by
  intro toks
  induction toks with
  | nil => intro i r m bs h hd; simp [bestPair] at h
  | cons a tl ih =>
    intro i r m bs h hd
    cases tl with
    | nil => simp [bestPair] at h
    | cons b rest =>
      cases i with
      | zero =>
        rcases bestPair_get h with ⟨x, y, hx, hy, hxy⟩
        simp only [List.get?_cons_zero, List.get?_cons_succ] at hx hy
        cases hx; cases hy
        have hrule := mergeRank_mem hxy
        have hcat := hmt _ hrule
        rcases decode_cons_ok hd with ⟨ba, rest1, ha, hd1, hb1⟩
        rcases decode_cons_ok hd1 with ⟨bb, rest2, hb, hd2, hb2⟩
        have hta := decodeOne_none_inv ha
        have htb := decodeOne_none_inv hb
        rw [hta, htb] at hcat
        simp only [Option.bind_some, Option.map_some'] at hcat
        rw [mergeAt_zero]
        rw [decode_cons_of (decodeOne_base hcat) hd2]
        subst hb1
        subst hb2
        rw [List.append_assoc]
      | succ i1 =>
        rw [mergeAt_succ]
        rcases decode_cons_ok hd with ⟨ba, rest1, ha, hd1, hb1⟩
        subst hb1
        have htail : bestPair mt (b :: rest) = some (i1, r, m) := by
          rw [bestPair] at h
          cases hmr : mergeRank mt (a, b) with
          | none =>
            rw [hmr] at h
            cases htb : bestPair mt (b :: rest) with
            | none => rw [htb] at h; simp at h
            | some irm =>
              obtain ⟨i2, r2, m2⟩ := irm
              rw [htb] at h
              simp only [Option.map_some'] at h
              cases h
              rfl
          | some rm0 =>
            obtain ⟨r0, m0⟩ := rm0
            rw [hmr] at h
            cases htb : bestPair mt (b :: rest) with
            | none =>
              rw [htb] at h
              simp only [Option.map_none'] at h
              cases h
            | some irm =>
              obtain ⟨i2, r2, m2⟩ := irm
              rw [htb] at h
              simp only [Option.map_some'] at h
              by_cases hle : r0 ≤ r2
              · rw [if_pos hle] at h; cases h
              · rw [if_neg hle] at h; cases h; rfl
        exact decode_cons_of ha (ih htail hd1)

lemma bpeRun_decode {v : Vocab} {mt : MergeTable} (hmt : MTConsistent v mt) :
    ∀ (fuel : Nat) {toks bs : List Nat}, decode v none toks = .ok bs →
      decode v none (bpeRun mt fuel toks) = .ok bs := by
  intro fuel
  induction fuel with
  | zero => intro toks bs h; simpa [bpeRun] using h
  | succ n ih =>
    intro toks bs h
    rw [bpeRun]
    cases hb : bestPair mt toks with
    | none => exact h
    | some irm =>
      obtain ⟨i, r, m⟩ := irm
      exact ih (decode_mergeAt hmt hb h)

/-! ## Base-token initialization lemmas -/

lemma baseToks_decode {v : Vocab} : ∀ {piece toks : List Nat},
    baseToks v piece = .ok toks → decode v none toks = .ok piece := by
  intro piece
  induction piece with
  | nil => intro toks h; cases h; rfl
  | cons b bs ih =>
    intro toks h
    rw [baseToks] at h
    cases hb : byteId v.entries b with
    | none => rw [hb] at h; cases h
    | some i =>
      rw [hb] at h
      cases hr : baseToks v bs with
      | error e => rw [hr] at h; cases h
      | ok rest =>
        rw [hr] at h
        cases h
        have h1 : decodeOne v none i = .ok [b] := decodeOne_base (byteId_get hb)
        rw [decode_cons_of h1 (ih hr)]
        rw [List.singleton_append]

lemma baseToks_complete {v : Vocab} (hv : ByteComplete v) : ∀ {piece : List Nat},
    (∀ b ∈ piece, b < 256) → ∃ toks, baseToks v piece = .ok toks := by
  intro piece
  induction piece with
  | nil => intro hb; exact ⟨[], rfl⟩
  | cons b bs ih =>
    intro hb
    have hbb : b < 256 := hb b (List.mem_cons_self _ _)
    have hsome := hv b hbb
    cases hid : byteId v.entries b with
    | none => rw [hid] at hsome; cases hsome
    | some i =>
      rcases ih (fun x hx => hb x (List.mem_cons_of_mem _ hx)) with ⟨rest, hrest⟩
      exact ⟨i :: rest, by rw [baseToks, hid, hrest]⟩

lemma baseToks_single {v : Vocab} {b i : Nat} (h : byteId v.entries b = some i) :
    baseToks v [b] = .ok [i] := by
  rw [baseToks, h]
  rfl

lemma bestPair_single {mt : MergeTable} {x : Nat} : bestPair mt [x] = none := rfl

lemma bpeMerge_single {mt : MergeTable} {x : Nat} : bpeMerge mt [x] = [x] := by
  rw [bpeMerge]
  simp only [List.length_singleton]
  rw [bpeRun, bestPair_single]

/-! ## Round-trip of the merge engine and the full pipeline -/

lemma encodePiece_roundtrip {v : Vocab} {mt : MergeTable} (hv : ByteComplete v)
    (hmt : MTConsistent v mt) {piece : List Nat} (hb : ∀ b ∈ piece, b < 256) :
    ∃ ts, encodePiece v mt piece = .ok ts ∧ decode v none ts = .ok piece := by
  rcases baseToks_complete hv hb with ⟨toks, htoks⟩
  refine ⟨bpeMerge mt toks, ?_, ?_⟩
  · rw [encodePiece, htoks]
  · exact bpeRun_decode hmt _ (baseToks_decode htoks)

lemma encodePieces_roundtrip {v : Vocab} {mt : MergeTable} (hv : ByteComplete v)
    (hmt : MTConsistent v mt) : ∀ {ps : List (List Nat)},
    (∀ p ∈ ps, ∀ b ∈ p, b < 256) →
    ∃ ts, encodePieces v mt ps = .ok ts ∧ decode v none ts = .ok ps.flatten := by
  intro ps
  induction ps with
  | nil => intro hb; exact ⟨[], rfl, rfl⟩
  | cons p rest ih =>
    intro hb
    rcases encodePiece_roundtrip hv hmt (hb p (List.mem_cons_self _ _)) with ⟨ts, hts, htsd⟩
    rcases ih (fun q hq => hb q (List.mem_cons_of_mem _ hq)) with ⟨rs, hrs, hrsd⟩
    refine ⟨ts ++ rs, ?_, ?_⟩
    · rw [encodePieces, hts, hrs]
    · rw [List.flatten_cons]
      exact decode_append_ok htsd hrsd

lemma byteVocab_byteId {b : Nat} (hb : b < 256) : byteId byteVocab.entries b = some b := by
  have := byteEntriesFrom_byteId 256 0 (Nat.zero_le b) (by omega)
  simpa [byteVocab] using this

/-! ## Error-shape lemmas for the decoder -/

lemma decodeOne_error_shape {v : Vocab} {st : Option SpecialTable} {t : Nat}
    {e : SplintrError} (h : decodeOne v st t = .error e) : e = .UnknownTokenId t := by
  rw [decodeOne.eq_def] at h
  cases h1 : tokenBytes v t with
  | some bs => rw [h1] at h; cases h
  | none =>
    rw [h1] at h
    cases st with
    | none => cases h; rfl
    | some tbl =>
      dsimp only at h
      cases h2 : specialBytes tbl t with
      | some bs => rw [h2] at h; cases h
      | none => rw [h2] at h; cases h; rfl

lemma decode_first_bad {v : Vocab} {st : Option SpecialTable} {id : Nat} :
    ∀ {ids : List Nat}, id ∈ ids → decodeOne v st id = .error (.UnknownTokenId id) →
    ∃ j, decodeOne v st j = .error (.UnknownTokenId j) ∧
      decode v st ids = .error (.UnknownTokenId j) := by
  intro ids
  induction ids with
  | nil => intro hmem; cases hmem
  | cons a rest ih =>
    intro hmem hbad
    cases h1 : decodeOne v st a with
    | error e =>
      have he := decodeOne_error_shape h1
      subst he
      exact ⟨a, h1, by rw [decode, h1]⟩
    | ok bs =>
      have hne : id ≠ a := by
        intro hid
        subst hid
        rw [hbad] at h1
        cases h1
      have hrest : id ∈ rest := by
        cases hmem with
        | head => exact absurd rfl hne
        | tail _ hr => exact hr
      rcases ih hrest hbad with ⟨j, hj, hjd⟩
      exact ⟨j, hj, by rw [decode, h1, hjd]⟩

/-! ## Claim theorems (first batch) -/

/-- C1: for every text of valid bytes, when the vocabulary is
byte-complete (and the merge table satisfies the concatenation invariant
and the pre-tokenizer is boundary-only), decoding the result of encoding
the text returns the original text exactly. -/
theorem claim_c1_roundtrip (v : Vocab) (mt : MergeTable)
    (pt : List Nat → List (List Nat)) (hv : ByteComplete v) (hmt : MTConsistent v mt)
    (hpt : ∀ s, (pt s).flatten = s) (text : List Nat) (htext : ∀ b ∈ text, b < 256) :
    ∃ toks, encode v mt pt text = .ok toks ∧ decode v none toks = .ok text := by
  have hpieces : ∀ p ∈ pt text, ∀ b ∈ p, b < 256 := by
    intro p hp b hb
    refine htext b ?_
    rw [← hpt text]
    exact List.mem_flatten.mpr ⟨p, hp, hb⟩
  rcases encodePieces_roundtrip hv hmt hpieces with ⟨ts, hts, htsd⟩
  refine ⟨ts, hts, ?_⟩
  rw [htsd, hpt]

/-- Witness for C1 at a concrete byte-complete vocabulary, the empty
merge table, the whole-text pre-tokenizer and the text "hi". -/
theorem claim_c1_roundtrip_witness :
    ∃ toks, encode byteVocab [] wholeTextPT [104, 105] = .ok toks ∧
      decode byteVocab none toks = .ok [104, 105] :=
  claim_c1_roundtrip byteVocab [] wholeTextPT byteVocab_complete
    (fun r hr => absurd hr (List.not_mem_nil r))
    (fun s => by simp [wholeTextPT]) [104, 105] (by decide)

/-- C2: the merge engine always merges the lowest-rank adjacent pair,
breaking ties leftmost-first (any pair strictly left of the chosen one
has strictly larger rank), and on the piece "aaaa" under the toy table
`a+a→X` (rank 0), `X+X→Y` (rank 1) it produces exactly the hand-computed
step sequence `[a,a,a,a] → [X,a,a] → [X,X] → [Y]`. -/
theorem claim_c2_merge_order :
    (∀ (mt : MergeTable) (toks : List Nat) (i r m : Nat),
        bestPair mt toks = some (i, r, m) →
        ∀ j a b r2 m2, j < i → toks.get? j = some a → toks.get? (j + 1) = some b →
          mergeRank mt (a, b) = some (r2, m2) → r < r2)
    ∧ bpeRun toyMerges 1 [0, 0, 0, 0] = [1, 0, 0]
    ∧ bpeRun toyMerges 2 [0, 0, 0, 0] = [1, 1]
    ∧ bpeRun toyMerges 3 [0, 0, 0, 0] = [2]
    ∧ bpeMerge toyMerges [0, 0, 0, 0] = [2]
    ∧ encodePiece toyVocab toyMerges [97, 97, 97, 97] = .ok [2] := by
  refine ⟨?_, by decide, by decide, by decide, by decide, by decide⟩
  intro mt toks i r m h j a b r2 m2 hj hja hjb hr
  exact bestPair_leftmost h j a b r2 m2 hj hja hjb hr

/-- C6: whenever some id in the sequence is invalid (base lookup fails
and, with or without a special table, no special entry covers it),
`decode` fails with `UnknownTokenId` and returns no partial byte string
for the valid portion. -/
theorem claim_c6_unknown_id (v : Vocab) (st : Option SpecialTable) (ids : List Nat)
    (id : Nat) (hmem : id ∈ ids)
    (hbad : decodeOne v st id = .error (.UnknownTokenId id)) :
    (∃ j, decodeOne v st j = .error (.UnknownTokenId j) ∧
      decode v st ids = .error (.UnknownTokenId j))
    ∧ ∀ bs, decode v st ids ≠ .ok bs := by
  rcases decode_first_bad hmem hbad with ⟨j, hj, hjd⟩
  refine ⟨⟨j, hj, hjd⟩, ?_⟩
  intro bs hok
  rw [hjd] at hok
  cases hok

/-- Witness for C6: `decode [valid_id, 999999999]` fails with
`UnknownTokenId` on the toy vocabulary with no special table. -/
theorem claim_c6_unknown_id_witness :
    (∃ j, decodeOne toyVocab none j = .error (.UnknownTokenId j) ∧
      decode toyVocab none [0, 999999999] = .error (.UnknownTokenId j))
    ∧ ∀ bs, decode toyVocab none [0, 999999999] ≠ .ok bs :=
  claim_c6_unknown_id toyVocab none [0, 999999999] 999999999 (by decide) (by decide)

/-- C9: the merge engine maps the empty piece to the empty output and a
single-byte piece to its single base token with no merge attempted; a
byte with no single-byte entry is a fatal `UnencodableByte`, which is
unreachable when the vocabulary is byte-complete. -/
theorem claim_c9_edge_cases (v : Vocab) (mt : MergeTable) :
    encodePiece v mt [] = .ok []
    ∧ (∀ b i, byteId v.entries b = some i → encodePiece v mt [b] = .ok [i])
    ∧ (∀ b, byteId v.entries b = none →
        encodePiece v mt [b] = .error (.UnencodableByte b))
    ∧ (ByteComplete v → ∀ piece, (∀ b ∈ piece, b < 256) →
        ∃ ts, encodePiece v mt piece = .ok ts) := by
  refine ⟨rfl, ?_, ?_, ?_⟩
  · intro b i h
    rw [encodePiece.eq_def, baseToks_single h]
    dsimp only
    rw [bpeMerge_single]
  · intro b h
    rw [encodePiece.eq_def, baseToks.eq_def]
    dsimp only
    rw [h]
  · intro hv piece hb
    rcases baseToks_complete hv hb with ⟨toks, htoks⟩
    exact ⟨bpeMerge mt toks, by rw [encodePiece.eq_def, htoks]⟩

/-- Witness for C9 on the toy vocabulary: empty piece, the known byte
`a`, and the unencodable byte `b`. -/
theorem claim_c9_edge_cases_witness :
    encodePiece toyVocab toyMerges [] = .ok []
    ∧ encodePiece toyVocab toyMerges [97] = .ok [0]
    ∧ encodePiece toyVocab toyMerges [98] = .error (.UnencodableByte 98) :=
  ⟨(claim_c9_edge_cases toyVocab toyMerges).1,
   (claim_c9_edge_cases toyVocab toyMerges).2.1 97 0 (by decide),
   (claim_c9_edge_cases toyVocab toyMerges).2.2.1 98 (by decide)⟩

/-! ## Batch-encoder lemmas (order preservation) -/

lemma foldl_set_length {α : Type} (g : Nat → α) :
    ∀ (order : List Nat) (acc : List α),
      (order.foldl (fun a j => a.set j (g j)) acc).length = acc.length := by
  intro order
  induction order with
  | nil => intro acc; rfl
  | cons j rest ih =>
    intro acc
    rw [List.foldl_cons, ih, List.length_set]

lemma foldl_set_not_mem {α : Type} (g : Nat → α) :
    ∀ (order : List Nat) (acc : List α) (i : Nat), i ∉ order →
      (order.foldl (fun a j => a.set j (g j)) acc).get? i = acc.get? i := by
  intro order
  induction order with
  | nil => intro acc i _; rfl
  | cons j rest ih =>
    intro acc i hni
    rw [List.foldl_cons]
    have hij : j ≠ i := fun h => hni (h ▸ List.mem_cons_self _ _)
    rw [ih _ _ (fun h => hni (List.mem_cons_of_mem _ h))]
    exact List.get?_set_ne _ _ hij

lemma foldl_set_mem {α : Type} (g : Nat → α) :
    ∀ (order : List Nat) (acc : List α) (i : Nat), i ∈ order → i < acc.length →
      (order.foldl (fun a j => a.set j (g j)) acc).get? i = some (g i) := by
  intro order
  induction order with
  | nil => intro acc i hmem; cases hmem
  | cons j rest ih =>
    intro acc i hmem hlen
    rw [List.foldl_cons]
    by_cases hr : i ∈ rest
    · exact ih _ _ hr (by rw [List.length_set]; exact hlen)
    · have hij : i = j := by
        cases hmem with
        | head => rfl
        | tail _ h => exact absurd h hr
      subst hij
      rw [foldl_set_not_mem g rest _ _ hr]
      exact List.get?_set_eq_of_lt _ hlen

/-- C4: for every ordered collection of inputs and every completion
order across workers (any permutation of the index range), the batch
encoder fills slot `i` with exactly `encode(inputs[i])`. -/
theorem claim_c4_batch_order (v : Vocab) (mt : MergeTable)
    (pt : List Nat → List (List Nat)) (inputs : List (List Nat)) (order : List Nat)
    (hperm : order.Perm (List.range inputs.length)) (i : Nat) (hi : i < inputs.length) :
    (encodeBatchOrdered v mt pt inputs order).get? i =
      some (some (encode v mt pt (inputs.getD i [])))
    ∧ (encodeBatch v mt pt inputs).get? i =
      some (some (encode v mt pt (inputs.getD i []))) := by
  have hmem : i ∈ order := hperm.mem_iff.mpr (List.mem_range.mpr hi)
  constructor
  · rw [encodeBatchOrdered]
    exact foldl_set_mem _ order _ i hmem (by rw [List.length_replicate]; exact hi)
  · rw [encodeBatch, encodeBatchOrdered]
    exact foldl_set_mem _ _ _ i (List.mem_range.mpr hi)
      (by rw [List.length_replicate]; exact hi)

/-- Witness for C4: two inputs completed in reversed order still fill
slot 0 with the encoding of input 0. -/
theorem claim_c4_batch_order_witness :
    (encodeBatchOrdered toyVocab toyMerges wholeTextPT [[97], [97, 97]] [1, 0]).get? 0 =
      some (some (encode toyVocab toyMerges wholeTextPT ([[97], [97, 97]].getD 0 [])))
    ∧ (encodeBatch toyVocab toyMerges wholeTextPT [[97], [97, 97]]).get? 0 =
      some (some (encode toyVocab toyMerges wholeTextPT ([[97], [97, 97]].getD 0 []))) :=
  claim_c4_batch_order toyVocab toyMerges wholeTextPT [[97], [97, 97]] [1, 0]
    (by decide) 0 (by decide)

/-! ## Cache lemmas -/

lemma cacheLookup_mem {k : List Nat} {ts : List Nat} : ∀ {c : Cache},
    cacheLookup c k = some ts → (k, ts) ∈ c := by
  intro c
  induction c with
  | nil => intro h; cases h
  | cons p rest ih =>
    obtain ⟨k1, ts1⟩ := p
    intro h
    rw [cacheLookup] at h
    by_cases hk : k1 = k
    · rw [if_pos hk] at h
      cases h
      subst hk
      exact List.mem_cons_self _ _
    · rw [if_neg hk] at h
      exact List.mem_cons_of_mem _ (ih h)

lemma lruInsert_mem {cap : Nat} {c : Cache} {k ts : List Nat} {p : List Nat × List Nat}
    (h : p ∈ lruInsert cap c k ts) : p = (k, ts) ∨ p ∈ c := by
  rw [lruInsert] at h
  have h2 := List.take_subset _ _ h
  cases h2 with
  | head => exact Or.inl rfl
  | tail _ hmem => exact Or.inr (List.mem_of_mem_filter hmem)

lemma lookupOrCompute_ok {cap : Nat} {v : Vocab} {mt : MergeTable} {c : Cache}
    {k : List Nat} {r : List Nat} {d : Cache} (hc : CacheGood v mt c)
    (h : lookupOrCompute cap v mt c k = .ok (r, d)) :
    encodePiece v mt k = .ok r ∧ CacheGood v mt d := by
  rw [lookupOrCompute] at h
  cases h1 : cacheLookup c k with
  | some ts =>
    rw [h1] at h
    cases h
    have henc := hc _ (cacheLookup_mem h1)
    refine ⟨henc, ?_⟩
    intro p hp
    cases lruInsert_mem hp with
    | inl he => subst he; exact henc
    | inr hmem => exact hc _ hmem
  | none =>
    rw [h1] at h
    cases h2 : encodePiece v mt k with
    | error e => rw [h2] at h; cases h
    | ok ts =>
      rw [h2] at h
      cases h
      refine ⟨rfl, ?_⟩
      intro p hp
      cases lruInsert_mem hp with
      | inl he => subst he; exact h2
      | inr hmem => exact hc _ hmem

/-- C7: encoding is deterministic with respect to cache state: any two
`lookup_or_compute` calls for the same piece, from any two caches whose
entries hold merge-engine results (cold, warm, or populated by racing
writers), return the same token sequence — the merge engine's result —
and preserve the cache invariant. -/
theorem claim_c7_cache_determinism (cap : Nat) (v : Vocab) (mt : MergeTable)
    (k : List Nat) (c c2 : Cache) (r r2 : List Nat) (d d2 : Cache)
    (hc : CacheGood v mt c) (hc2 : CacheGood v mt c2)
    (h1 : lookupOrCompute cap v mt c k = .ok (r, d))
    (h2 : lookupOrCompute cap v mt c2 k = .ok (r2, d2)) :
    r = r2 ∧ encodePiece v mt k = .ok r ∧ CacheGood v mt d ∧ CacheGood v mt d2 := by
  rcases lookupOrCompute_ok hc h1 with ⟨he1, hd1⟩
  rcases lookupOrCompute_ok hc2 h2 with ⟨he2, hd2⟩
  rw [he1] at he2
  cases he2
  exact ⟨rfl, he1, hd1, hd2⟩

/-- Witness for C7: first call on a cold cache, second on the warm cache
it produced; both return the merge-engine result for "aa". -/
theorem claim_c7_cache_determinism_witness :
    ([1] : List Nat) = [1] ∧ encodePiece toyVocab toyMerges [97, 97] = .ok [1]
    ∧ CacheGood toyVocab toyMerges [([97, 97], [1])]
    ∧ CacheGood toyVocab toyMerges [([97, 97], [1])] :=
  claim_c7_cache_determinism 4 toyVocab toyMerges [97, 97] [] [([97, 97], [1])]
    [1] [1] [([97, 97], [1])] [([97, 97], [1])]
    (by decide) (by decide) (by decide) (by decide)

/-! ## LRU retention lemmas -/

lemma cacheLookup_mid {k ts : List Nat} {suf : Cache} : ∀ {pre : Cache},
    (∀ p ∈ pre, p.1 ≠ k) → cacheLookup (pre ++ (k, ts) :: suf) k = some ts := by
  intro pre
  induction pre with
  | nil =>
    intro _
    rw [List.nil_append, cacheLookup]
    simp
  | cons q rest ih =>
    obtain ⟨k1, ts1⟩ := q
    intro hpre
    rw [List.cons_append, cacheLookup]
    have hne : k1 ≠ k := hpre _ (List.mem_cons_self _ _)
    rw [if_neg hne]
    exact ih (fun p hp => hpre p (List.mem_cons_of_mem _ hp))

lemma cacheLookup_none_keys {k : List Nat} : ∀ {c : Cache},
    cacheLookup c k = none → ∀ p ∈ c, p.1 ≠ k := by
  intro c
  induction c with
  | nil => intro _ p hp; cases hp
  | cons q rest ih =>
    obtain ⟨k1, ts1⟩ := q
    intro h p hp
    rw [cacheLookup] at h
    by_cases hk : k1 = k
    · rw [if_pos hk] at h; cases h
    · rw [if_neg hk] at h
      cases hp with
      | head => exact hk
      | tail _ hmem => exact ih h p hmem

lemma lru_retains {cap : Nat} {k ts : List Nat} :
    ∀ (others : List (List Nat × List Nat)) (pre suf : Cache),
      (∀ p ∈ pre, p.1 ≠ k) → (∀ p ∈ others, p.1 ≠ k) →
      pre.length + others.length < cap →
      cacheLookup (others.foldl (fun d p => lruInsert cap d p.1 p.2)
        (pre ++ (k, ts) :: suf)) k = some ts := by
  intro others
  induction others with
  | nil =>
    intro pre suf hpre _ _
    exact cacheLookup_mid hpre
  | cons q rest ih =>
    intro pre suf hpre hoth hlen
    rw [List.foldl_cons]
    have hqk : q.1 ≠ k := hoth q (List.mem_cons_self _ _)
    have hkq : decide ((k, ts).1 ≠ q.1) = true := decide_eq_true (Ne.symm hqk)
    have hfilter : (pre ++ (k, ts) :: suf).filter (fun p => decide (p.1 ≠ q.1))
        = pre.filter (fun p => decide (p.1 ≠ q.1))
          ++ (k, ts) :: suf.filter (fun p => decide (p.1 ≠ q.1)) := by
      rw [List.filter_append, List.filter_cons, if_pos hkq]
    have hprelen : (pre.filter (fun p => decide (p.1 ≠ q.1))).length ≤ pre.length :=
      List.length_filter_le _ _
    rw [lruInsert, hfilter]
    have hlen2 : ((q.1, q.2) :: pre.filter (fun p => decide (p.1 ≠ q.1))).length ≤ cap := by
      simp only [List.length_cons] at hlen ⊢
      omega
    rw [← List.cons_append]
    rw [List.take_append_eq_append_take]
    rw [List.take_of_length_le hlen2]
    have hpos : 0 < cap - ((q.1, q.2) :: pre.filter (fun p => decide (p.1 ≠ q.1))).length := by
      simp only [List.length_cons] at hlen ⊢
      omega
    cases hcap2 : cap - ((q.1, q.2) :: pre.filter (fun p => decide (p.1 ≠ q.1))).length with
    | zero => omega
    | succ n2 =>
      rw [List.take_succ_cons]
      refine ih ((q.1, q.2) :: pre.filter (fun p => decide (p.1 ≠ q.1)))
        (List.take n2 (suf.filter (fun p => decide (p.1 ≠ q.1)))) ?_ ?_ ?_
      · intro p hp
        cases hp with
        | head => exact hqk
        | tail _ hmem => exact hpre p (List.mem_of_mem_filter hmem)
      · intro p hp
        exact hoth p (List.mem_cons_of_mem _ hp)
      · simp only [List.length_cons] at hlen ⊢
        simp only [List.length_cons] at hlen2
        omega

/-- C8: the cache capacity bound is invariant: an insertion never grows
the cache beyond the capacity; the inserted (most-recently-used) entry
is immediately retrievable; on overflow of a full cache it is exactly
the least-recently-used (last) entry that is evicted; and the entry
stays retrievable across any further run of fewer-than-capacity
insertions of other keys. -/
theorem claim_c8_lru_capacity (cap : Nat) (hcap : 0 < cap) (c : Cache)
    (k ts : List Nat) :
    (lruInsert cap c k ts).length ≤ cap
    ∧ cacheLookup (lruInsert cap c k ts) k = some ts
    ∧ (cacheLookup c k = none → c.length = cap →
        lruInsert cap c k ts = (k, ts) :: c.take (cap - 1))
    ∧ (∀ others : List (List Nat × List Nat), others.length < cap →
        (∀ p ∈ others, p.1 ≠ k) →
        cacheLookup (others.foldl (fun d p => lruInsert cap d p.1 p.2)
          (lruInsert cap c k ts)) k = some ts) := by
  cases cap with
  | zero => omega
  | succ n =>
    refine ⟨?_, ?_, ?_, ?_⟩
    · rw [lruInsert, List.length_take]
      exact min_le_left _ _
    · rw [lruInsert, List.take_succ_cons, cacheLookup]
      simp
    · intro hnone hfull
      have hkeys := cacheLookup_none_keys hnone
      have hfeq : c.filter (fun p => decide (p.1 ≠ k)) = c :=
        List.filter_eq_self.mpr (fun p hp => decide_eq_true (hkeys p hp))
      rw [lruInsert, hfeq, List.take_succ_cons]
      simp
    · intro others hlen hoth
      have hfl : (c.filter (fun p => decide (p.1 ≠ k))).length ≤ c.length :=
        List.length_filter_le _ _
      rw [lruInsert, List.take_succ_cons]
      have h4 := @lru_retains (n + 1) k ts others []
        (List.take n (c.filter (fun p => decide (p.1 ≠ k))))
        (fun p hp => absurd hp (List.not_mem_nil p)) hoth (by simpa using hlen)
      simpa using h4

/-- Witness for C8: capacity 2 with one existing entry and a fresh key. -/
theorem claim_c8_lru_capacity_witness :
    (lruInsert 2 [([5], [50])] [7] [70]).length ≤ 2
    ∧ cacheLookup (lruInsert 2 [([5], [50])] [7] [70]) [7] = some [70]
    ∧ (cacheLookup [([5], [50])] [7] = none → [([5], [50])].length = 2 →
        lruInsert 2 [([5], [50])] [7] [70] = ([7], [70]) :: [([5], [50])].take (2 - 1))
    ∧ (∀ others : List (List Nat × List Nat), others.length < 2 →
        (∀ p ∈ others, p.1 ≠ [7]) →
        cacheLookup (others.foldl (fun d p => lruInsert 2 d p.1 p.2)
          (lruInsert 2 [([5], [50])] [7] [70])) [7] = some [70]) :=
  claim_c8_lru_capacity 2 (by decide) [([5], [50])] [7] [70]

/-! ## Streaming-decoder buffer lemmas -/

lemma pendingRev_isPre (r : List Nat) : pendingRev r <+: r := by
  rcases r with _ | ⟨b0, _ | ⟨b1, _ | ⟨b2, rest⟩⟩⟩
  · exact List.nil_prefix
  all_goals
    simp only [pendingRev]
    split_ifs
    all_goals exact ⟨_, rfl⟩

lemma pendingRev_drop (r : List Nat) :
    pendingRev r ++ r.drop (pendingRev r).length = r := by
  rcases pendingRev_isPre r with ⟨t, ht⟩
  set p := pendingRev r with hp
  rw [← ht, List.drop_left]

lemma splitBuf_parts (l : List Nat) : (splitBuf l).1 ++ (splitBuf l).2 = l := by
  rw [splitBuf]
  dsimp only
  rw [← List.reverse_append, pendingRev_drop, List.reverse_reverse]

lemma pendingRev_shape (r : List Nat) :
    pendingRev r = [] ∨ isIncompleteUtf8 (pendingRev r).reverse = true := by
  rcases r with _ | ⟨b0, _ | ⟨b1, _ | ⟨b2, rest⟩⟩⟩
  · left; rfl
  all_goals
    simp only [pendingRev]
    split_ifs
    all_goals
      first
        | (left; rfl)
        | (right
           simp only [List.reverse_cons, List.reverse_nil, List.nil_append,
             List.cons_append, List.singleton_append, isIncompleteUtf8]
           simp_all)

lemma splitBuf_shape (l : List Nat) :
    (splitBuf l).2 = [] ∨ isIncompleteUtf8 (splitBuf l).2 = true := by
  rw [splitBuf]
  cases pendingRev_shape l.reverse with
  | inl h => left; rw [h]; rfl
  | inr h => right; exact h

/-! ## Streaming run lemmas -/

lemma sdRun_ok {v : Vocab} {st : Option SpecialTable} : ∀ {ids : List Nat}
    {buf bs : List Nat}, decode v st ids = .ok bs →
    ∃ em bufF, sdRun v st buf ids = .ok (em, bufF) ∧ em ++ bufF = buf ++ bs ∧
      (bufF = buf ∨ bufF = [] ∨ isIncompleteUtf8 bufF = true) := by
  intro ids
  induction ids with
  | nil =>
    intro buf bs h
    cases h
    exact ⟨[], buf, rfl, by simp, Or.inl rfl⟩
  | cons id rest ih =>
    intro buf bs h
    rcases decode_cons_ok h with ⟨b1, brest, h1, h2, hb⟩
    subst hb
    rcases @ih (splitBuf (buf ++ b1)).2 brest h2 with ⟨em2, bufF, hrun, hcat, hshape⟩
    refine ⟨(splitBuf (buf ++ b1)).1 ++ em2, bufF, ?_, ?_, ?_⟩
    · rw [sdRun, sdAdd, h1]
      dsimp only
      rw [hrun]
    · rw [List.append_assoc, hcat, ← List.append_assoc, splitBuf_parts,
        List.append_assoc]
    · cases hshape with
      | inl he =>
        rw [he]
        cases splitBuf_shape (buf ++ b1) with
        | inl h3 => exact Or.inr (Or.inl h3)
        | inr h3 => exact Or.inr (Or.inr h3)
      | inr hr => exact Or.inr hr

/-- C3: for every decodable token sequence, the concatenation of all
`add_token` fragments plus the final `flush()` equals `decode(sequence)`
when the stream ends complete; when the retained buffer is non-empty it
is a genuinely incomplete UTF-8 tail, and `flush()` substitutes the
standard replacement marker for it (never dropping it silently) and
clears the decoder state. -/
theorem claim_c3_streaming (v : Vocab) (st : Option SpecialTable) (ids : List Nat)
    (bs : List Nat) (h : decode v st ids = .ok bs) :
    ∃ em buf, sdRun v st [] ids = .ok (em, buf) ∧ em ++ buf = bs ∧
      (buf = [] → em ++ (sdFlush buf).1 = bs) ∧
      (buf ≠ [] → isIncompleteUtf8 buf = true ∧
        em ++ (sdFlush buf).1 = em ++ replacementChar ∧ (sdFlush buf).2 = []) := by
  rcases @sdRun_ok v st ids [] bs h with ⟨em, buf, hrun, hcat, hshape⟩
  rw [List.nil_append] at hcat
  refine ⟨em, buf, hrun, hcat, ?_, ?_⟩
  · intro hempty
    rw [hempty, sdFlush, if_pos rfl]
    rw [hempty] at hcat
    simpa using hcat
  · intro hne
    have hinc : isIncompleteUtf8 buf = true := by
      cases hshape with
      | inl h0 => exact absurd h0 hne
      | inr h0 =>
        cases h0 with
        | inl h0 => exact absurd h0 hne
        | inr h0 => exact h0
    exact ⟨hinc, by rw [sdFlush, if_neg hne], by rw [sdFlush, if_neg hne]⟩

/-- Witness for C3 on the toy vocabulary: a decodable two-token stream. -/
theorem claim_c3_streaming_witness :
    ∃ em buf, sdRun toyVocab none [] [0, 1] = .ok (em, buf) ∧
      em ++ buf = [97, 97, 97] ∧
      (buf = [] → em ++ (sdFlush buf).1 = [97, 97, 97]) ∧
      (buf ≠ [] → isIncompleteUtf8 buf = true ∧
        em ++ (sdFlush buf).1 = em ++ replacementChar ∧ (sdFlush buf).2 = []) :=
  claim_c3_streaming toyVocab none [0, 1] [97, 97, 97] (by decide)

/-! ## Token-range lemmas: strict encode only emits base-vocabulary ids -/

lemma baseToks_lt {v : Vocab} : ∀ {piece toks : List Nat},
    baseToks v piece = .ok toks → ∀ t ∈ toks, t < v.size := by
  intro piece
  induction piece with
  | nil => intro toks h t ht; cases h; cases ht
  | cons b bs ih =>
    intro toks h t ht
    rw [baseToks] at h
    cases hb : byteId v.entries b with
    | none => rw [hb] at h; cases h
    | some i =>
      rw [hb] at h
      cases hr : baseToks v bs with
      | error e => rw [hr] at h; cases h
      | ok rest =>
        rw [hr] at h
        cases h
        cases ht with
        | head => exact byteId_lt hb
        | tail _ hmem => exact ih hr t hmem

lemma mergeAt_mem {toks : List Nat} {i m x : Nat} (h : x ∈ mergeAt toks i m) :
    x ∈ toks ∨ x = m := by
  rw [mergeAt] at h
  cases List.mem_append.mp h with
  | inl htake => exact Or.inl (List.take_subset _ _ htake)
  | inr hrest =>
    cases hrest with
    | head => exact Or.inr rfl
    | tail _ hdrop => exact Or.inl (List.drop_subset _ _ hdrop)

lemma bpeRun_lt {v : Vocab} {mt : MergeTable} (hmt : MTConsistent v mt) :
    ∀ (fuel : Nat) {toks : List Nat}, (∀ t ∈ toks, t < v.size) →
      ∀ t ∈ bpeRun mt fuel toks, t < v.size := by
  intro fuel
  induction fuel with
  | zero => intro toks h t ht; rw [bpeRun] at ht; exact h t ht
  | succ n ih =>
    intro toks h t ht
    rw [bpeRun] at ht
    cases hb : bestPair mt toks with
    | none => rw [hb] at ht; exact h t ht
    | some irm =>
      obtain ⟨i, r, m⟩ := irm
      rw [hb] at ht
      rcases bestPair_get hb with ⟨a, b, hia, hib, hab⟩
      have hrule := mergeRank_mem hab
      have hma : a < v.size := h a (List.get?_mem hia)
      have hmb : b < v.size := h b (List.get?_mem hib)
      rcases tokenBytes_of_lt hma with ⟨ba, hba⟩
      rcases tokenBytes_of_lt hmb with ⟨bb, hbb⟩
      have hcat := hmt _ hrule
      rw [hba, hbb] at hcat
      simp only [Option.bind_some, Option.map_some'] at hcat
      have hmlt : m < v.size := tokenBytes_lt hcat
      refine ih ?_ t ht
      intro x hx
      cases mergeAt_mem hx with
      | inl hmem => exact h x hmem
      | inr he => exact he ▸ hmlt

lemma encodePiece_lt {v : Vocab} {mt : MergeTable} (hmt : MTConsistent v mt)
    {piece toks : List Nat} (h : encodePiece v mt piece = .ok toks) :
    ∀ t ∈ toks, t < v.size := by
  rw [encodePiece.eq_def] at h
  cases hb : baseToks v piece with
  | error e => rw [hb] at h; cases h
  | ok base =>
    rw [hb] at h
    cases h
    exact bpeRun_lt hmt _ (baseToks_lt hb)

lemma encodePieces_lt {v : Vocab} {mt : MergeTable} (hmt : MTConsistent v mt) :
    ∀ {ps : List (List Nat)} {toks : List Nat},
      encodePieces v mt ps = .ok toks → ∀ t ∈ toks, t < v.size := by
  intro ps
  induction ps with
  | nil => intro toks h t ht; cases h; cases ht
  | cons p rest ih =>
    intro toks h t ht
    rw [encodePieces] at h
    cases h1 : encodePiece v mt p with
    | error e => rw [h1] at h; cases h
    | ok ts =>
      rw [h1] at h
      cases h2 : encodePieces v mt rest with
      | error e => rw [h2] at h; cases h
      | ok rs =>
        rw [h2] at h
        cases h
        cases List.mem_append.mp ht with
        | inl hl => exact encodePiece_lt hmt h1 t hl
        | inr hr => exact ih h2 t hr

/-! ## Special-token matcher lemmas -/

lemma isPrefixOf_true {l t : List Nat} : l.isPrefixOf t = true ↔ l <+: t :=
  List.isPrefixOf_iff_prefix

lemma matchAt_mem {text m : List Nat} {i : Nat} : ∀ {tbl : SpecialTable},
    matchAt tbl text = some (m, i) → (m, i) ∈ tbl ∧ m ≠ [] ∧ m <+: text := by
  intro tbl
  induction tbl with
  | nil => intro h; cases h
  | cons q rest ih =>
    obtain ⟨m0, i0⟩ := q
    intro h
    rw [matchAt] at h
    by_cases hc : (decide (m0 ≠ []) && m0.isPrefixOf text) = true
    · rw [if_pos hc] at h
      have hc2 : m0 ≠ [] ∧ m0.isPrefixOf text = true := by simpa using hc
      have hne2 : m0 ≠ [] := hc2.1
      have hp2 : m0 <+: text := isPrefixOf_true.mp hc2.2
      cases hr : matchAt rest text with
      | none =>
        rw [hr] at h
        cases h
        exact ⟨List.mem_cons_self _ _, hne2, hp2⟩
      | some q2 =>
        obtain ⟨m2, i2⟩ := q2
        rw [hr] at h
        dsimp only at h
        by_cases hlt : m0.length < m2.length
        · rw [if_pos hlt] at h
          cases h
          rcases ih hr with ⟨hmem, hne3, hp3⟩
          exact ⟨List.mem_cons_of_mem _ hmem, hne3, hp3⟩
        · rw [if_neg hlt] at h
          cases h
          exact ⟨List.mem_cons_self _ _, hne2, hp2⟩
    · rw [if_neg hc] at h
      rcases ih h with ⟨hmem, hne3, hp3⟩
      exact ⟨List.mem_cons_of_mem _ hmem, hne3, hp3⟩

lemma matchAt_longest {text m : List Nat} {i : Nat} : ∀ {tbl : SpecialTable},
    (m, i) ∈ tbl → m ≠ [] → m <+: text →
    ∃ m2 i2, matchAt tbl text = some (m2, i2) ∧ m.length ≤ m2.length := by
  intro tbl
  induction tbl with
  | nil => intro hmem; cases hmem
  | cons q rest ih =>
    obtain ⟨m0, i0⟩ := q
    intro hmem hne hp
    rw [matchAt]
    cases hmem with
    | head =>
      have hc : (decide (m ≠ []) && m.isPrefixOf text) = true := by
        simp [hne, isPrefixOf_true.mpr hp]
      rw [if_pos hc]
      cases hr : matchAt rest text with
      | none => exact ⟨m, i, rfl, Nat.le_refl _⟩
      | some q2 =>
        obtain ⟨m2, i2⟩ := q2
        dsimp only
        by_cases hlt : m.length < m2.length
        · rw [if_pos hlt]
          exact ⟨m2, i2, rfl, Nat.le_of_lt hlt⟩
        · rw [if_neg hlt]
          exact ⟨m, i, rfl, Nat.le_refl _⟩
    | tail _ hmem2 =>
      rcases ih hmem2 hne hp with ⟨m2, i2, hr, hle⟩
      by_cases hc : (decide (m0 ≠ []) && m0.isPrefixOf text) = true
      · rw [if_pos hc, hr]
        dsimp only
        by_cases hlt : m0.length < m2.length
        · rw [if_pos hlt]
          exact ⟨m2, i2, rfl, hle⟩
        · rw [if_neg hlt]
          exact ⟨m0, i0, rfl, by omega⟩
      · rw [if_neg hc]
        exact ⟨m2, i2, hr, hle⟩

/-! ## Special-token splitter lemmas -/

lemma splitSpecialF_join {tbl : SpecialTable} : ∀ (fuel : Nat) (pend text : List Nat),
    ((splitSpecialF tbl fuel pend text).map segBytes).flatten = pend.reverse ++ text := by
  intro fuel
  induction fuel with
  | zero =>
    intro pend text
    cases text with
    | nil =>
      by_cases hp : pend = []
      · simp [splitSpecialF, hp]
      · simp [splitSpecialF, hp, segBytes]
    | cons c rest =>
      by_cases hp : pend = []
      · simp [splitSpecialF, hp, segBytes]
      · simp [splitSpecialF, hp, segBytes]
  | succ n ih =>
    intro pend text
    cases text with
    | nil =>
      by_cases hp : pend = []
      · simp [splitSpecialF, hp]
      · simp [splitSpecialF, hp, segBytes]
    | cons c rest =>
      rw [splitSpecialF]
      cases hm : matchAt tbl (c :: rest) with
      | none =>
        dsimp only
        rw [ih]
        simp
      | some q =>
        obtain ⟨m, i⟩ := q
        rcases matchAt_mem hm with ⟨hmem, hne, hpre⟩
        rcases hpre with ⟨t, ht⟩
        have hdrop : (c :: rest).drop m.length = t := by
          rw [← ht]
          exact List.drop_left _ _
        dsimp only
        by_cases hp : pend = []
        · simp [hp, segBytes, ih, hdrop, ht]
        · simp [hp, segBytes, ih, hdrop, ht]

lemma splitSpecialF_sound {tbl : SpecialTable} : ∀ (fuel : Nat) (pend text : List Nat)
    (seg : Seg), seg ∈ splitSpecialF tbl fuel pend text →
    ∀ m i, seg = .special m i → (m, i) ∈ tbl := by
  intro fuel
  induction fuel with
  | zero =>
    intro pend text seg hseg m i he
    subst he
    cases text with
    | nil =>
      by_cases hp : pend = []
      · simp [splitSpecialF, hp] at hseg
      · simp [splitSpecialF, hp] at hseg
    | cons c rest =>
      by_cases hp : pend = []
      · simp [splitSpecialF, hp] at hseg
      · simp [splitSpecialF, hp] at hseg
  | succ n ih =>
    intro pend text seg hseg m i he
    cases text with
    | nil =>
      subst he
      by_cases hp : pend = []
      · simp [splitSpecialF, hp] at hseg
      · simp [splitSpecialF, hp] at hseg
    | cons c rest =>
      rw [splitSpecialF] at hseg
      cases hm : matchAt tbl (c :: rest) with
      | none =>
        rw [hm] at hseg
        dsimp only at hseg
        exact ih (c :: pend) rest seg hseg m i he
      | some q =>
        obtain ⟨m0, i0⟩ := q
        rw [hm] at hseg
        dsimp only at hseg
        subst he
        have hmem0 := (matchAt_mem hm).1
        by_cases hp : pend = []
        · rw [if_pos hp, List.nil_append] at hseg
          cases hseg with
          | head => exact hmem0
          | tail _ hrest => exact ih [] _ _ hrest m i rfl
        · rw [if_neg hp] at hseg
          cases List.mem_append.mp hseg with
          | inl hgap => simp at hgap
          | inr hrest2 =>
            cases hrest2 with
            | head => exact hmem0
            | tail _ hrest => exact ih [] _ _ hrest m i rfl

lemma splitSpecial_front {tbl : SpecialTable} {m : List Nat} {i : Nat}
    (hmem : (m, i) ∈ tbl) (hne : m ≠ []) (rest : List Nat) :
    ∃ m2 i2 segs, (m2, i2) ∈ tbl ∧ m.length ≤ m2.length ∧
      splitSpecial tbl (m ++ rest) = .special m2 i2 :: segs := by
  have hp : m <+: m ++ rest := ⟨rest, rfl⟩
  rcases matchAt_longest hmem hne hp with ⟨m2, i2, hmatch, hle⟩
  have hmem2 := (matchAt_mem hmatch).1
  cases m with
  | nil => exact absurd rfl hne
  | cons c cs =>
    refine ⟨m2, i2, splitSpecialF tbl (cs ++ rest).length []
      ((c :: (cs ++ rest)).drop m2.length), hmem2, hle, ?_⟩
    rw [splitSpecial, List.cons_append, List.length_cons, splitSpecialF]
    rw [List.cons_append] at hmatch
    rw [hmatch]
    dsimp only
    rfl

lemma encodeWithSpecial_head {v : Vocab} {mt : MergeTable}
    {pt : List Nat → List (List Nat)} {tbl : SpecialTable} {m : List Nat} {i : Nat}
    (hmem : (m, i) ∈ tbl) (hne : m ≠ []) (rest out : List Nat)
    (hok : encodeWithSpecial v mt pt tbl (m ++ rest) = .ok out) :
    ∃ m2 i2 tl, (m2, i2) ∈ tbl ∧ m.length ≤ m2.length ∧ out = i2 :: tl := by
  rcases splitSpecial_front hmem hne rest with ⟨m2, i2, segs, hmem2, hle, hsplit⟩
  rw [encodeWithSpecial, hsplit, segsTokens] at hok
  dsimp only [segTokens] at hok
  cases hr : segsTokens v mt pt segs with
  | error e => rw [hr] at hok; cases hok
  | ok rs =>
    rw [hr] at hok
    cases hok
    exact ⟨m2, i2, rs, hmem2, hle, rfl⟩

lemma segsTokens_special_mem {v : Vocab} {mt : MergeTable}
    {pt : List Nat → List (List Nat)} : ∀ {segs : List Seg} {out : List Nat}
    {m2 : List Nat} {i2 : Nat}, segsTokens v mt pt segs = .ok out →
    Seg.special m2 i2 ∈ segs → i2 ∈ out := by
  intro segs
  induction segs with
  | nil => intro out m2 i2 h hmem; cases hmem
  | cons sg rest ih =>
    intro out m2 i2 h hmem
    rw [segsTokens] at h
    cases h1 : segTokens v mt pt sg with
    | error e => rw [h1] at h; cases h
    | ok ts =>
      rw [h1] at h
      cases h2 : segsTokens v mt pt rest with
      | error e => rw [h2] at h; cases h
      | ok rs =>
        rw [h2] at h
        cases h
        cases hmem with
        | head =>
          rw [segTokens] at h1
          cases h1
          exact List.mem_append.mpr (Or.inl (List.mem_singleton.mpr rfl))
        | tail _ hmem2 =>
          exact List.mem_append.mpr (Or.inr (ih h2 hmem2))

lemma splitSpecialF_covers {tbl : SpecialTable} : ∀ (fuel : Nat) (u m w : List Nat)
    (i : Nat) (pend : List Nat), (u ++ m ++ w).length ≤ fuel → (m, i) ∈ tbl → m ≠ [] →
    ∃ segs1 m2 i2 segs2,
      splitSpecialF tbl fuel pend (u ++ m ++ w) = segs1 ++ .special m2 i2 :: segs2 ∧
      (m2, i2) ∈ tbl ∧ m2 ≠ [] ∧
      ∃ u2, ((segs1.map segBytes).flatten) ++ u2 = pend.reverse ++ u ∧
        u2.length < m2.length := by
  intro fuel
  induction fuel with
  | zero =>
    intro u m w i pend hlen hmem hne
    rw [List.length_append, List.length_append] at hlen
    have hm : m.length = 0 := by omega
    exact absurd (List.length_eq_zero.mp hm) hne
  | succ f ih =>
    intro u m w i pend hlen hmem hne
    cases u with
    | nil =>
      cases m with
      | nil => exact absurd rfl hne
      | cons c cs =>
        simp only [List.nil_append, List.cons_append]
        have hpre : (c :: cs) <+: c :: (cs ++ w) := ⟨w, by simp⟩
        rcases matchAt_longest hmem hne hpre with ⟨m2, i2, hmatch, hle⟩
        rcases matchAt_mem hmatch with ⟨hmem2, hne2, hpre2⟩
        rw [splitSpecialF, hmatch]
        dsimp only
        refine ⟨(if pend = [] then ([] : List Seg) else [Seg.gap pend.reverse]), m2, i2,
          splitSpecialF tbl f [] ((c :: (cs ++ w)).drop m2.length), rfl, hmem2, hne2,
          [], ?_, ?_⟩
        · by_cases hp : pend = [] <;> simp [hp, segBytes]
        · simpa using List.length_pos.mpr hne2
    | cons c us =>
      simp only [List.cons_append] at hlen ⊢
      rw [splitSpecialF]
      cases hmatch : matchAt tbl (c :: (us ++ m ++ w)) with
      | none =>
        dsimp only
        simp only [List.length_cons] at hlen
        rcases ih us m w i (c :: pend) (by omega) hmem hne with
          ⟨segs1, m2, i2, segs2, hspl, hmem2, hne2, u2, hcat, hlt⟩
        refine ⟨segs1, m2, i2, segs2, hspl, hmem2, hne2, u2, ?_, hlt⟩
        rw [hcat]
        simp
      | some q =>
        obtain ⟨m0, i0⟩ := q
        dsimp only
        rcases matchAt_mem hmatch with ⟨hmem0, hne0, hpre0⟩
        have hL0 : 0 < m0.length := List.length_pos.mpr hne0
        by_cases hcov : (c :: us).length < m0.length
        · refine ⟨(if pend = [] then ([] : List Seg) else [Seg.gap pend.reverse]), m0, i0,
            splitSpecialF tbl f [] ((c :: (us ++ m ++ w)).drop m0.length), rfl, hmem0, hne0,
            c :: us, ?_, hcov⟩
          by_cases hp : pend = [] <;> simp [hp, segBytes]
        · push_neg at hcov
          have htake2 : (c :: us).take m0.length = m0 := by
            have h1 := List.prefix_iff_eq_take.mp hpre0
            rw [show c :: (us ++ m ++ w) = (c :: us) ++ (m ++ w) by simp] at h1
            rw [List.take_append_of_le_length hcov] at h1
            exact h1.symm
          have hdrop : (c :: (us ++ m ++ w)).drop m0.length
              = (c :: us).drop m0.length ++ m ++ w := by
            rw [show c :: (us ++ m ++ w) = (c :: us) ++ (m ++ w) by simp]
            rw [List.drop_append_of_le_length hcov]
            rw [← List.append_assoc]
          have hlen2 : ((c :: us).drop m0.length ++ m ++ w).length ≤ f := by
            simp only [List.length_cons, List.length_append, List.length_drop] at hlen ⊢
            omega
          rcases ih ((c :: us).drop m0.length) m w i [] hlen2 hmem hne with
            ⟨segs1, m2, i2, segs2, hspl, hmem2, hne2, u2, hcat, hlt⟩
          rw [List.reverse_nil, List.nil_append] at hcat
          have hpend : ((if pend = [] then ([] : List Seg)
              else [Seg.gap pend.reverse]).map segBytes).flatten = pend.reverse := by
            by_cases hp : pend = [] <;> simp [hp, segBytes]
          refine ⟨(if pend = [] then ([] : List Seg) else [Seg.gap pend.reverse])
              ++ Seg.special m0 i0 :: segs1, m2, i2, segs2, ?_, hmem2, hne2, u2, ?_, hlt⟩
          · rw [hdrop, hspl]
            simp
          · simp only [List.map_append, List.map_cons, List.flatten_append,
              List.flatten_cons, segBytes, hpend, List.append_assoc]
            rw [hcat]
            conv_rhs => rw [← List.take_append_drop m0.length (c :: us)]
            rw [htake2]

lemma splitSpecial_covers {tbl : SpecialTable} {m : List Nat} {i : Nat}
    (hmem : (m, i) ∈ tbl) (hne : m ≠ []) (u w : List Nat) :
    ∃ segs1 m2 i2 segs2,
      splitSpecial tbl (u ++ m ++ w) = segs1 ++ .special m2 i2 :: segs2 ∧
      (m2, i2) ∈ tbl ∧ m2 ≠ [] ∧
      ∃ u2, ((segs1.map segBytes).flatten) ++ u2 = u ∧ u2.length < m2.length := by
  have h := splitSpecialF_covers (u ++ m ++ w).length u m w i [] (Nat.le_refl _) hmem hne
  simpa [splitSpecial] using h

/-- C5: in strict mode a literal marker string is never mapped to its
reserved id (strict encode only ever emits base-vocabulary ids, and
reserved ids lie outside that range).  In permissive mode every
occurrence of a registered marker is always mapped: the scan
reconstructs the text from marker and gap segments, every special
segment carries a registered marker, and for every occurrence
`u ++ m ++ w` of a registered marker — at any position — the scan emits
a special segment whose span covers that position (leftmost-longest
overlap policy) and whose reserved id appears in the
`encode_with_special` output; a text beginning with a marker starts
with a reserved id at least as long a match, and the surrounding
ordinary text is encoded through the strict pipeline segment by
segment. -/
theorem claim_c5_special_modes (v : Vocab) (mt : MergeTable)
    (pt : List Nat → List (List Nat)) (tbl : SpecialTable)
    (hmt : MTConsistent v mt) (hids : ∀ p ∈ tbl, v.size ≤ p.2) :
    (∀ text toks, encode v mt pt text = .ok toks → ∀ p ∈ tbl, p.2 ∉ toks)
    ∧ (∀ text, ((splitSpecial tbl text).map segBytes).flatten = text)
    ∧ (∀ text seg, seg ∈ splitSpecial tbl text →
        ∀ m i, seg = .special m i → (m, i) ∈ tbl)
    ∧ (∀ u m w i, (m, i) ∈ tbl → m ≠ [] →
        ∃ segs1 m2 i2 segs2,
          splitSpecial tbl (u ++ m ++ w) = segs1 ++ .special m2 i2 :: segs2 ∧
          (m2, i2) ∈ tbl ∧
          (∃ u2, ((segs1.map segBytes).flatten) ++ u2 = u ∧ u2.length < m2.length) ∧
          (∀ out, encodeWithSpecial v mt pt tbl (u ++ m ++ w) = .ok out → i2 ∈ out))
    ∧ (∀ m i rest out, (m, i) ∈ tbl → m ≠ [] →
        encodeWithSpecial v mt pt tbl (m ++ rest) = .ok out →
        ∃ m2 i2 tl, (m2, i2) ∈ tbl ∧ m.length ≤ m2.length ∧ out = i2 :: tl)
    ∧ (∀ text, encodeWithSpecial v mt pt tbl text =
        segsTokens v mt pt (splitSpecial tbl text)) := by
  refine ⟨?_, ?_, ?_, ?_, ?_, ?_⟩
  · intro text toks h p hp hmem
    have hlt := encodePieces_lt hmt h _ hmem
    have hge := hids p hp
    omega
  · intro text
    have hj := @splitSpecialF_join tbl text.length [] text
    simpa [splitSpecial] using hj
  · intro text seg hseg m i he
    exact splitSpecialF_sound _ _ _ _ hseg m i he
  · intro u m w i hmem hne
    rcases splitSpecial_covers hmem hne u w with
      ⟨segs1, m2, i2, segs2, hspl, hmem2, hne2, u2, hcat, hlt⟩
    refine ⟨segs1, m2, i2, segs2, hspl, hmem2, ⟨u2, hcat, hlt⟩, ?_⟩
    intro out hok
    rw [encodeWithSpecial, hspl] at hok
    exact segsTokens_special_mem hok
      (List.mem_append.mpr (Or.inr (List.mem_cons_self _ _)))
  · intro m i rest out hmem hne hok
    exact encodeWithSpecial_head hmem hne rest out hok
  · intro text
    rfl

/-- Witness for C5: on the toy table, the scan of "a<t>a" reconstructs
the text, the mid-text occurrence of the marker `<t>` (at position 1,
neither at the head nor at the end) is covered by an emitted special
segment whose id reaches the output, and the permissive encoding is
concretely `[0, 100, 0]` — the reserved id 100 between the encodings of
the gaps. -/
theorem claim_c5_special_modes_witness :
    (((splitSpecial toySpecials [97, 60, 116, 62, 97]).map segBytes).flatten
      = [97, 60, 116, 62, 97])
    ∧ (∃ segs1 m2 i2 segs2,
        splitSpecial toySpecials ([97] ++ [60, 116, 62] ++ [97])
          = segs1 ++ .special m2 i2 :: segs2 ∧
        (m2, i2) ∈ toySpecials ∧
        (∃ u2, ((segs1.map segBytes).flatten) ++ u2 = [97] ∧ u2.length < m2.length) ∧
        (∀ out, encodeWithSpecial toyVocab toyMerges wholeTextPT toySpecials
            ([97] ++ [60, 116, 62] ++ [97]) = .ok out → i2 ∈ out))
    ∧ encodeWithSpecial toyVocab toyMerges wholeTextPT toySpecials
        [97, 60, 116, 62, 97] = .ok [0, 100, 0] :=
  ⟨(claim_c5_special_modes toyVocab toyMerges wholeTextPT toySpecials
      (by decide) (by decide)).2.1 [97, 60, 116, 62, 97],
   (claim_c5_special_modes toyVocab toyMerges wholeTextPT toySpecials
      (by decide) (by decide)).2.2.2.1 [97] [60, 116, 62] [97] 100
      (by decide) (by decide),
   by decide⟩

/-- C10: the cl100k agent-token constant table binds its documented fixed
ids — `THINK = 100282` and `FUNCTION = 100292` — and every tokenizer
instance built from the cl100k configuration carries exactly this
constant table, whatever loader data it is built from. -/
theorem claim_c10_agent_tokens :
    CL100K_AGENT_TOKENS.THINK = 100282
    ∧ CL100K_AGENT_TOKENS.FUNCTION = 100292
    ∧ (∀ (v v2 : Vocab) (mt mt2 : MergeTable)
        (pt pt2 : List Nat → List (List Nat)) (st st2 : Option SpecialTable),
        (fromPretrainedCl100k v mt pt st).agent
          = (fromPretrainedCl100k v2 mt2 pt2 st2).agent
        ∧ (fromPretrainedCl100k v mt pt st).agent = CL100K_AGENT_TOKENS) :=
  ⟨rfl, rfl, fun _ _ _ _ _ _ _ _ => ⟨rfl, rfl⟩⟩

end Splintr
